import Mathlib

/-!
Verification of the interval-set program `manage_intervals.py`.

The program stores a set of disjoint half-open integer intervals as a flat
even-length strictly-increasing list of endpoints `_m_IntervalList`
(even positions are interval starts, odd positions are interval ends).
We embed the methods of `EditIntervalsProgram` as pure functions:
the list-level cores work on `List Int`, and the stateful methods work on
`ProgState` (the interval list together with the emitted log messages).
-/

namespace ManageIntervals

/-! ## The search loop

`searchIdx l v idx` is the while loop
`while idx < len(lst) and lst[idx] < v: idx += 1`
(lines 190-196 and 408-414 of the source), returning the final index. -/

def searchIdx (l : List Int) (v : Int) (idx : Nat) : Nat :=
  if h : idx < l.length ∧ l.getD idx 0 < v then searchIdx l v (idx + 1) else idx
termination_by l.length - idx
decreasing_by exact Nat.sub_lt_sub_left h.1 (Nat.lt_succ_self idx)

/-- The same search loop with explicit fuel; `none` means the fuel ran out. -/
def searchIdxFuel : Nat → List Int → Int → Nat → Option Nat
  | 0, _, _, _ => none
  | n + 1, l, v, idx =>
    if idx < l.length ∧ l.getD idx 0 < v then searchIdxFuel n l v (idx + 1)
    else some idx

/-! ## The interior-deletion loop

`deleteLoop l c e` is the while loop
`while currentIdx < len(lst) and lst[currentIdx] < end: del lst[currentIdx]`
(lines 300-301 and 508-509 of the source). -/

def deleteLoop (l : List Int) (c : Nat) (e : Int) : List Int :=
  if h : c < l.length ∧ l.getD c 0 < e then deleteLoop (l.eraseIdx c) c e else l
termination_by l.length
decreasing_by
  rw [List.length_eraseIdx, if_pos h.1]
  exact Nat.sub_lt (Nat.lt_of_le_of_lt (Nat.zero_le c) h.1) Nat.one_pos

/-- The interior-deletion loop with explicit fuel. -/
def deleteLoopFuel : Nat → List Int → Nat → Int → Option (List Int)
  | 0, _, _, _ => none
  | n + 1, l, c, e =>
    if c < l.length ∧ l.getD c 0 < e then deleteLoopFuel n (l.eraseIdx c) c e
    else some l

/-- The boolean comparison used by the loops, as a reusable predicate. -/
def pLt (v x : Int) : Bool := decide (x < v)

/-! ## `addInterval` (source lines 132-375), list-level core -/

def addIntervalList (l : List Int) (s e : Int) : List Int :=
  -- line 134: error case, start >= end (the caller logs; the list is untouched)
  if s ≥ e then l
  -- line 138: empty list, or last endpoint < start: append
  else if l.length = 0 ∨ l.getLastD 0 < s then l ++ [s, e]
  -- line 162: first endpoint > end: prepend
  else if e < l.headD 0 then s :: e :: l
  else
    let i := searchIdx l s 0
    let j := searchIdx l e i
    let isStartIntervalEnd := i % 2 = 1
    let isEndIntervalEnd := j % 2 = 1
    -- lines 227-286: resolve the start boundary; `p` is (list, currentIdx)
    let p :=
      if s < l.getD i 0 then
        if isStartIntervalEnd then (l, i) else (l.insertIdx i s, i + 1)
      else
        if isStartIntervalEnd then (l.eraseIdx i, i) else (l, i + 1)
    -- lines 300-301: delete interior entries < end
    let l2 := deleteLoop p.1 p.2 e
    -- lines 307-375: resolve the end boundary
    if e > l2.getLastD 0 then l2 ++ [e]
    else if e < l2.getD p.2 0 then
      if isEndIntervalEnd then l2 else l2.insertIdx p.2 e
    else
      if isEndIntervalEnd then l2 else l2.eraseIdx p.2

/-! ## `removeInterval` (source lines 377-582), list-level core -/

def removeIntervalList (l : List Int) (s e : Int) : List Int :=
  -- line 381: error case
  if s ≥ e then l
  -- line 392: empty list or removal entirely beyond the last endpoint: no-op
  else if l.length = 0 ∨ l.getLastD 0 < s then l
  else
    let i := searchIdx l s 0
    let j := searchIdx l e i
    let isStartIntervalEnd := i % 2 = 1
    let isEndIntervalEnd := j % 2 = 1
    -- lines 433-494: resolve the start boundary
    let p :=
      if s < l.getD i 0 then
        if isStartIntervalEnd then (l.insertIdx i s, i + 1) else (l, i)
      else
        if isStartIntervalEnd then (l, i + 1) else (l.eraseIdx i, i)
    -- lines 508-509: delete interior entries < end
    let l2 := deleteLoop p.1 p.2 e
    -- lines 511-582: resolve the end boundary
    if p.2 ≥ l2.length then l2
    else if e < l2.getD p.2 0 then
      if isEndIntervalEnd then l2.insertIdx p.2 e else l2
    else
      if isEndIntervalEnd then l2.eraseIdx p.2 else l2

/-! ## Semantic notions -/

/-- Membership of an integer in the set represented by an endpoint list:
consecutive pairs are half-open intervals. -/
def memIS : List Int → Int → Bool
  | a :: b :: rest, x => (decide (a ≤ x) && decide (x < b)) || memIS rest x
  | _, _ => false

/-- The enumeration of the stored intervals as (start, end) pairs, as
`printIntervals` pairs them up (source lines 108-114). -/
def toPairs : List Int → List (Int × Int)
  | a :: b :: rest => (a, b) :: toPairs rest
  | _ => []

/-- The representation invariant (source header comment, lines 28-31, and the
disjointness requirement of lines 11-13): even length, strictly increasing. -/
def EndpointInv (l : List Int) : Prop :=
  l.length % 2 = 0 ∧ l.Pairwise (· < ·)

instance : DecidablePred EndpointInv := fun l => by
  unfold EndpointInv; infer_instance

/-! ## Characterizing the loops -/

theorem getD_at (l : List Int) (idx : Nat) (h : idx < l.length) : l.getD idx 0 = l[idx] := by
  rw [List.getD_eq_getElem?_getD, List.getElem?_eq_getElem h]
  rfl

theorem searchIdx_eq (l : List Int) (v : Int) (idx : Nat) :
    searchIdx l v idx = idx + ((l.drop idx).takeWhile (pLt v)).length := by
  rw [searchIdx]
  split
  · rename_i h
    rw [searchIdx_eq l v (idx + 1)]
    rw [List.drop_eq_getElem_cons h.1, List.takeWhile_cons]
    have h2 := h.2
    rw [getD_at l idx h.1] at h2
    have hv : pLt v (l[idx]) = true := by simp [pLt, h2]
    simp only [hv, if_true, List.length_cons]
    omega
  · rename_i h
    rcases Nat.lt_or_ge idx l.length with hlt | hge
    · have hv : ¬ l.getD idx 0 < v := fun hc => h ⟨hlt, hc⟩
      rw [getD_at l idx hlt] at hv
      rw [List.drop_eq_getElem_cons hlt, List.takeWhile_cons]
      have hvf : pLt v (l[idx]) = false := by simp [pLt, hv]
      simp [hvf]
    · rw [List.drop_eq_nil_of_le hge]
      simp
termination_by l.length - idx
decreasing_by omega

theorem deleteLoop_eq (l : List Int) (c : Nat) (e : Int) :
    deleteLoop l c e = l.take c ++ (l.drop c).dropWhile (pLt e) := by
  rw [deleteLoop]
  split
  · rename_i h
    rw [deleteLoop_eq (l.eraseIdx c) c e]
    have herase : l.eraseIdx c = l.take c ++ l.drop (c + 1) :=
      List.eraseIdx_eq_take_drop_succ l c
    have hlen : (l.take c).length = c := by
      rw [List.length_take]; exact Nat.min_eq_left (Nat.le_of_lt h.1)
    have htake : (l.eraseIdx c).take c = l.take c := by
      rw [herase, List.take_left' hlen]
    have hdrop : (l.eraseIdx c).drop c = l.drop (c + 1) := by
      rw [herase, List.drop_left' hlen]
    rw [htake, hdrop, List.drop_eq_getElem_cons h.1, List.dropWhile_cons]
    have h2 := h.2
    rw [getD_at l c h.1] at h2
    have hv : pLt e (l[c]) = true := by simp [pLt, h2]
    rw [hv]
    simp
  · rename_i h
    rcases Nat.lt_or_ge c l.length with hlt | hge
    · have hv : ¬ l.getD c 0 < e := fun hc => h ⟨hlt, hc⟩
      rw [getD_at l c hlt] at hv
      rw [List.drop_eq_getElem_cons hlt, List.dropWhile_cons]
      have hvf : pLt e (l[c]) = false := by simp [pLt, hv]
      rw [hvf]
      simp only [Bool.false_eq_true, if_false]
      rw [← List.drop_eq_getElem_cons hlt, List.take_append_drop]
    · rw [List.drop_eq_nil_of_le hge, List.take_of_length_le hge]
      simp
termination_by l.length
decreasing_by
  rename_i hcc
  rw [List.length_eraseIdx, if_pos hcc.1]
  omega

theorem searchIdxFuel_converges (n : Nat) :
    ∀ (l : List Int) (v : Int) (idx : Nat), l.length - idx < n →
      searchIdxFuel n l v idx = some (searchIdx l v idx) := by
  induction n with
  | zero => intro l v idx h; omega
  | succ n ih =>
    intro l v idx h
    rw [searchIdxFuel, searchIdx]
    split
    · rename_i hc
      exact ih l v (idx + 1) (by omega)
    · rfl

theorem deleteLoopFuel_converges (n : Nat) :
    ∀ (l : List Int) (c : Nat) (e : Int), l.length < n →
      deleteLoopFuel n l c e = some (deleteLoop l c e) := by
  induction n with
  | zero => intro l c e h; omega
  | succ n ih =>
    intro l c e h
    rw [deleteLoopFuel, deleteLoop]
    split
    · rename_i hc
      refine ih (l.eraseIdx c) c e ?_
      rw [List.length_eraseIdx, if_pos hc.1]
      omega
    · rfl

/-! ## Small list facts -/

theorem headD_nonempty (B : List Int) (hB : B ≠ []) (d : Int) : B.headD d = B.head hB := by
  rw [List.headD_eq_head?, List.head?_eq_head hB]
  rfl

theorem getLastD_nonempty (B : List Int) (hB : B ≠ []) (d : Int) :
    B.getLastD d = B.getLast hB := by
  rw [List.getLastD_eq_getLast?, List.getLast?_eq_getLast B hB]
  rfl

theorem getLastD_mem (B : List Int) (hB : B ≠ []) (d : Int) : B.getLastD d ∈ B := by
  rw [getLastD_nonempty B hB]
  exact List.getLast_mem hB

theorem headD_mem (B : List Int) (hB : B ≠ []) (d : Int) : B.headD d ∈ B := by
  rw [headD_nonempty B hB]
  exact List.head_mem hB

theorem getLastD_append_right (P B : List Int) (hB : B ≠ []) (d : Int) :
    (P ++ B).getLastD d = B.getLastD d := by
  rw [List.getLastD_eq_getLast?, List.getLastD_eq_getLast?, List.getLast?_append,
    List.getLast?_eq_getLast B hB]
  rfl

theorem insertIdx_append_length (P B : List Int) (x : Int) :
    (P ++ B).insertIdx P.length x = P ++ x :: B := by
  induction P with
  | nil => simp
  | cons a P ih => simp [List.insertIdx_succ_cons, ih]

theorem eraseIdx_append_length (P B : List Int) :
    (P ++ B).eraseIdx P.length = P ++ B.tail := by
  induction P with
  | nil => cases B <;> simp
  | cons a P ih => simp [List.eraseIdx_cons_succ, ih]

theorem getD_append_length (P B : List Int) (d : Int) :
    (P ++ B).getD P.length d = B.headD d := by
  induction P with
  | nil => cases B <;> simp
  | cons a P ih => simpa using ih

theorem dropWhile_head_false {p : Int → Bool} :
    ∀ {l : List Int} {b : Int} {t : List Int}, l.dropWhile p = b :: t → p b = false := by
  intro l
  induction l with
  | nil => intro b t h; simp at h
  | cons a l ih =>
    intro b t h
    rw [List.dropWhile_cons] at h
    split at h
    · exact ih h
    · rename_i hp
      cases h
      simpa using hp

theorem dropWhile_self {p : Int → Bool} (l : List Int) :
    (l.dropWhile p).dropWhile p = l.dropWhile p := by
  cases h : l.dropWhile p with
  | nil => rfl
  | cons b t =>
    rw [List.dropWhile_cons, dropWhile_head_false h]
    simp

theorem dropWhile_append_of_all {p : Int → Bool} (X Y : List Int)
    (h : ∀ x ∈ X, p x = true) : (X ++ Y).dropWhile p = Y.dropWhile p := by
  induction X with
  | nil => rfl
  | cons a X ih =>
    rw [List.cons_append, List.dropWhile_cons, if_pos (h a (List.mem_cons_self a X))]
    exact ih (fun x hx => h x (List.mem_cons_of_mem a hx))

theorem pairwise_headD_le (l : List Int) (hp : l.Pairwise (· < ·)) (x : Int)
    (hx : x ∈ l) (d : Int) : l.headD d ≤ x := by
  cases l with
  | nil => simp at hx
  | cons a t =>
    rw [List.headD_cons]
    rcases List.mem_cons.mp hx with rfl | hx
    · exact le_refl x
    · exact le_of_lt ((List.pairwise_cons.mp hp).1 x hx)

theorem pairwise_le_getLastD (l : List Int) (hp : l.Pairwise (· < ·)) :
    ∀ x ∈ l, ∀ d, x ≤ l.getLastD d := by
  induction l with
  | nil => intro x hx; simp at hx
  | cons a t ih =>
    intro x hx d
    rw [List.getLastD_cons]
    rcases List.mem_cons.mp hx with rfl | hmem
    · cases t with
      | nil => exact le_refl x
      | cons b t' =>
        have hab : x < b := (List.pairwise_cons.mp hp).1 b (List.mem_cons_self b t')
        exact le_trans (le_of_lt hab)
          (ih (List.pairwise_cons.mp hp).2 b (List.mem_cons_self b t') x)
    · exact ih (List.pairwise_cons.mp hp).2 x hmem a

/-! ## Decomposition of a sorted endpoint list around a new interval -/

/-- The endpoints strictly below `s`: the untouched front part of the list. -/
def Pp (l : List Int) (s : Int) : List Int := l.takeWhile (pLt s)

/-- The endpoints at or above `s`. -/
def Bp (l : List Int) (s : Int) : List Int := l.dropWhile (pLt s)

/-- The affected middle: endpoints at or above `s` and strictly below `e`. -/
def Mp (l : List Int) (s e : Int) : List Int := (Bp l s).takeWhile (pLt e)

/-- The untouched tail part: endpoints at or above `e`. -/
def Dp (l : List Int) (s e : Int) : List Int := (Bp l s).dropWhile (pLt e)

theorem Pp_Bp (l : List Int) (s : Int) : Pp l s ++ Bp l s = l :=
  List.takeWhile_append_dropWhile (pLt s) l

theorem Mp_Dp (l : List Int) (s e : Int) : Mp l s e ++ Dp l s e = Bp l s :=
  List.takeWhile_append_dropWhile (pLt e) (Bp l s)

theorem decomp (l : List Int) (s e : Int) : Pp l s ++ (Mp l s e ++ Dp l s e) = l := by
  rw [Mp_Dp, Pp_Bp]

theorem mem_Pp_lt {l : List Int} {s x : Int} (hx : x ∈ Pp l s) : x < s := by
  have := List.mem_takeWhile_imp hx
  simpa [pLt] using this

theorem mem_Mp_lt {l : List Int} {s e x : Int} (hx : x ∈ Mp l s e) : x < e := by
  have := List.mem_takeWhile_imp hx
  simpa [pLt] using this

theorem Bp_head_ge {l : List Int} {s b : Int} {t : List Int}
    (h : Bp l s = b :: t) : s ≤ b := by
  have := @dropWhile_head_false (pLt s) l b t h
  simpa [pLt] using this

theorem Dp_head_ge {l : List Int} {s e d : Int} {t : List Int}
    (h : Dp l s e = d :: t) : e ≤ d := by
  have := @dropWhile_head_false (pLt e) (Bp l s) d t h
  simpa [pLt] using this

theorem pairwise_Bp {l : List Int} (s : Int) (hp : l.Pairwise (· < ·)) :
    (Bp l s).Pairwise (· < ·) := by
  have h2 : (Pp l s ++ Bp l s).Pairwise (· < ·) := by
    rw [Pp_Bp]; exact hp
  exact (List.pairwise_append.mp h2).2.1

theorem pairwise_Dp {l : List Int} (s e : Int) (hp : l.Pairwise (· < ·)) :
    (Dp l s e).Pairwise (· < ·) := by
  have h2 : (Mp l s e ++ Dp l s e).Pairwise (· < ·) := by
    rw [Mp_Dp]; exact pairwise_Bp s hp
  exact (List.pairwise_append.mp h2).2.1

theorem mem_Bp_ge {l : List Int} {s x : Int} (hp : l.Pairwise (· < ·))
    (hx : x ∈ Bp l s) : s ≤ x := by
  cases hB : Bp l s with
  | nil => rw [hB] at hx; simp at hx
  | cons b t =>
    rw [hB] at hx
    have hb : s ≤ b := Bp_head_ge hB
    have hpB := pairwise_Bp s hp
    rw [hB] at hpB
    rcases List.mem_cons.mp hx with rfl | hxt
    · exact hb
    · exact le_of_lt (lt_of_le_of_lt hb ((List.pairwise_cons.mp hpB).1 x hxt))

theorem mem_Dp_ge {l : List Int} {s e x : Int} (hp : l.Pairwise (· < ·))
    (hx : x ∈ Dp l s e) : e ≤ x := by
  cases hD : Dp l s e with
  | nil => rw [hD] at hx; simp at hx
  | cons d t =>
    rw [hD] at hx
    have hd : e ≤ d := Dp_head_ge hD
    have hpD := pairwise_Dp s e hp
    rw [hD] at hpD
    rcases List.mem_cons.mp hx with rfl | hxt
    · exact hd
    · exact le_of_lt (lt_of_le_of_lt hd ((List.pairwise_cons.mp hpD).1 x hxt))

theorem searchIdx_zero (l : List Int) (s : Int) : searchIdx l s 0 = (Pp l s).length := by
  rw [searchIdx_eq]
  simp [Pp]

theorem drop_Pp (l : List Int) (s : Int) : l.drop (Pp l s).length = Bp l s := by
  have h := List.drop_left (Pp l s) (Bp l s)
  rwa [Pp_Bp] at h

theorem searchIdx_from (l : List Int) (s e : Int) :
    searchIdx l e (Pp l s).length = (Pp l s).length + (Mp l s e).length := by
  rw [searchIdx_eq, drop_Pp]
  rfl

/-! ## Closed forms of the two mutations on invariant states

On a sorted even-length list, both mutations turn out to replace the affected
middle `Mp` by fresh boundaries determined only by the parities of the two
insertion indices. These closed forms are proved equal to the transcribed
algorithms below and carry all further reasoning. -/

/-- The fresh boundary placed at `e`, merged with a coinciding stored
boundary: this is the common shape of the end-resolution outcome. -/
def endMatch (D : List Int) (e : Int) : List Int :=
  match D with
  | [] => [e]
  | d :: t => if d = e then t else e :: d :: t

def addClosed (l : List Int) (s e : Int) : List Int :=
  (if (Pp l s).length % 2 = 1 then Pp l s else Pp l s ++ [s]) ++
    (if (l.length - (Dp l s e).length) % 2 = 1 then Dp l s e
     else endMatch (Dp l s e) e)

def removeClosed (l : List Int) (s e : Int) : List Int :=
  (if (Pp l s).length % 2 = 1 then Pp l s ++ [s] else Pp l s) ++
    (if (l.length - (Dp l s e).length) % 2 = 1 then endMatch (Dp l s e) e
     else Dp l s e)

/-! ### The four shapes produced by start resolution plus interior deletion -/

theorem shape_insert (l : List Int) (s e : Int) :
    (l.insertIdx (Pp l s).length s).take ((Pp l s).length + 1) ++
      ((l.insertIdx (Pp l s).length s).drop ((Pp l s).length + 1)).dropWhile (pLt e) =
    (Pp l s ++ [s]) ++ Dp l s e := by
  have h1 := insertIdx_append_length (Pp l s) (Bp l s) s
  rw [Pp_Bp] at h1
  rw [h1]
  have hassoc : Pp l s ++ s :: Bp l s = (Pp l s ++ [s]) ++ Bp l s := by simp
  have hlen : (Pp l s ++ [s]).length = (Pp l s).length + 1 := by simp
  rw [hassoc, List.take_left' hlen, List.drop_left' hlen]
  rfl

theorem shape_keep (l : List Int) (s e : Int) :
    l.take (Pp l s).length ++ (l.drop (Pp l s).length).dropWhile (pLt e) =
    Pp l s ++ Dp l s e := by
  have htake := @List.take_left' Int (Pp l s) (Bp l s) ((Pp l s).length) rfl
  rw [Pp_Bp] at htake
  rw [htake, drop_Pp]
  rfl

theorem shape_erase (l : List Int) (s e : Int) {b0 : Int} {B' : List Int}
    (hBc : Bp l s = b0 :: B') (hb0e : b0 < e) :
    (l.eraseIdx (Pp l s).length).take (Pp l s).length ++
      ((l.eraseIdx (Pp l s).length).drop (Pp l s).length).dropWhile (pLt e) =
    Pp l s ++ Dp l s e := by
  have h1 := eraseIdx_append_length (Pp l s) (Bp l s)
  rw [Pp_Bp] at h1
  rw [h1, hBc]
  have htake := @List.take_left' Int (Pp l s) ((b0 :: B').tail) ((Pp l s).length) rfl
  have hdrop := @List.drop_left' Int (Pp l s) ((b0 :: B').tail) ((Pp l s).length) rfl
  simp only [List.tail_cons] at htake hdrop ⊢
  rw [htake, hdrop]
  have hD : Dp l s e = B'.dropWhile (pLt e) := by
    rw [Dp, hBc, List.dropWhile_cons, if_pos (by simp [pLt, hb0e])]
  rw [hD]

theorem shape_keep_past (l : List Int) (s e : Int) {b0 : Int} {B' : List Int}
    (hBc : Bp l s = b0 :: B') (hb0s : b0 = s) (hb0e : b0 < e) :
    l.take ((Pp l s).length + 1) ++ (l.drop ((Pp l s).length + 1)).dropWhile (pLt e) =
    (Pp l s ++ [s]) ++ Dp l s e := by
  have hl : (Pp l s ++ [b0]) ++ B' = l := by
    rw [List.append_assoc, List.singleton_append, ← hBc, Pp_Bp]
  have hD : Dp l s e = B'.dropWhile (pLt e) := by
    rw [Dp, hBc, List.dropWhile_cons, if_pos (by simp [pLt, hb0e])]
  rw [hD, show Pp l s ++ [s] = Pp l s ++ [b0] by rw [hb0s]]
  generalize hPg : Pp l s = P0
  rw [hPg] at hl
  subst hl
  have hlen : (P0 ++ [b0]).length = P0.length + 1 := by simp
  rw [List.take_left' hlen, List.drop_left' hlen]

/-! ### Collapsing the end-resolution phase -/

theorem add_end_resolve (lo D : List Int) (e : Int) (c : Nat) (hc : c = lo.length)
    (jodd : Prop) [Decidable jodd]
    (hjD : jodd → D ≠ []) (hlo : lo ≠ []) (hloe : ∀ x ∈ lo, x < e)
    (hD : ∀ y ∈ D, e ≤ y) :
    (if e > (lo ++ D).getLastD 0 then (lo ++ D) ++ [e]
     else if e < (lo ++ D).getD c 0 then
       (if jodd then lo ++ D else (lo ++ D).insertIdx c e)
     else (if jodd then lo ++ D else (lo ++ D).eraseIdx c)) =
    lo ++ (if jodd then D else endMatch D e) := by
  subst hc
  cases D with
  | nil =>
    have hlast : (lo ++ ([] : List Int)).getLastD 0 < e := by
      rw [List.append_nil]
      exact hloe _ (getLastD_mem lo hlo 0)
    rw [if_pos hlast]
    have hj : ¬ jodd := fun hj => hjD hj rfl
    rw [if_neg hj]
    simp [endMatch]
  | cons d t =>
    have hlast : ¬ e > (lo ++ d :: t).getLastD 0 := by
      rw [getLastD_append_right lo (d :: t) (by simp) 0]
      exact not_lt.mpr (hD _ (getLastD_mem (d :: t) (by simp) 0))
    rw [if_neg hlast]
    have hgd : (lo ++ d :: t).getD lo.length 0 = d := by
      rw [getD_append_length]
      simp
    rw [hgd]
    by_cases hed : e < d
    · rw [if_pos hed]
      by_cases hj : jodd
      · rw [if_pos hj, if_pos hj]
      · rw [if_neg hj, if_neg hj, insertIdx_append_length]
        have hne : d ≠ e := by omega
        simp [endMatch, hne]
    · rw [if_neg hed]
      have hde : d = e := le_antisymm (not_lt.mp hed) (hD d (by simp))
      by_cases hj : jodd
      · rw [if_pos hj, if_pos hj]
      · rw [if_neg hj, if_neg hj, eraseIdx_append_length]
        simp [endMatch, hde]

theorem remove_end_resolve (lo D : List Int) (e : Int) (c : Nat) (hc : c = lo.length)
    (jodd : Prop) [Decidable jodd]
    (hjD : jodd → D ≠ []) (hD : ∀ y ∈ D, e ≤ y) :
    (if c ≥ (lo ++ D).length then lo ++ D
     else if e < (lo ++ D).getD c 0 then
       (if jodd then (lo ++ D).insertIdx c e else lo ++ D)
     else (if jodd then (lo ++ D).eraseIdx c else lo ++ D)) =
    lo ++ (if jodd then endMatch D e else D) := by
  subst hc
  cases D with
  | nil =>
    rw [if_pos (by simp)]
    have hj : ¬ jodd := fun hj => hjD hj rfl
    rw [if_neg hj]
  | cons d t =>
    rw [if_neg (by simp)]
    have hgd : (lo ++ d :: t).getD lo.length 0 = d := by
      rw [getD_append_length]
      simp
    rw [hgd]
    by_cases hed : e < d
    · rw [if_pos hed]
      by_cases hj : jodd
      · rw [if_pos hj, if_pos hj, insertIdx_append_length]
        have hne : d ≠ e := by omega
        simp [endMatch, hne]
      · rw [if_neg hj, if_neg hj]
    · rw [if_neg hed]
      have hde : d = e := le_antisymm (not_lt.mp hed) (hD d (by simp))
      by_cases hj : jodd
      · rw [if_pos hj, if_pos hj, eraseIdx_append_length]
        simp [endMatch, hde]
      · rw [if_neg hj, if_neg hj]

/-! ### The algorithms equal their closed forms on invariant states -/

theorem add_eq_closed (l : List Int) (s e : Int) (hinv : EndpointInv l) (hse : s < e) :
    addIntervalList l s e = addClosed l s e := by
  obtain ⟨hlen, hp⟩ := hinv
  have hld := congrArg List.length (decomp l s e)
  rw [List.length_append, List.length_append] at hld
  rw [addIntervalList, if_neg (not_le.mpr hse)]
  by_cases hA : l.length = 0 ∨ l.getLastD 0 < s
  · rw [if_pos hA]
    have hBnil : Bp l s = [] := by
      cases hBc : Bp l s with
      | nil => rfl
      | cons b t =>
        exfalso
        have hbl : b ∈ l := by
          have hpb := Pp_Bp l s
          rw [hBc] at hpb
          rw [← hpb]
          exact List.mem_append_right _ (List.mem_cons_self b t)
        rcases hA with h0 | hlast
        · rw [List.length_eq_zero] at h0
          rw [h0] at hbl
          simp at hbl
        · have h1 := pairwise_le_getLastD l hp b hbl 0
          have h2 := Bp_head_ge hBc
          omega
    have hPl : Pp l s = l := by
      have hpb := Pp_Bp l s
      rw [hBnil, List.append_nil] at hpb
      exact hpb
    have hDnil : Dp l s e = [] := by
      rw [Dp, hBnil]
      rfl
    rw [addClosed, hDnil, hPl]
    have h0 : ¬ l.length % 2 = 1 := by omega
    rw [if_neg h0, if_neg (by simpa using h0)]
    simp [endMatch]
  · rw [if_neg hA]
    push_neg at hA
    obtain ⟨hl0, hlast⟩ := hA
    have hlne : l ≠ [] := by
      intro h
      rw [h] at hl0
      simp at hl0
    by_cases hB : e < l.headD 0
    · rw [if_pos hB]
      obtain ⟨a0, t, hcons⟩ := List.exists_cons_of_ne_nil hlne
      have ha0 : l.headD 0 = a0 := by rw [hcons]; rfl
      rw [ha0] at hB
      have hc1 : ¬ (pLt s a0 = true) := by
        simp only [pLt, decide_eq_true_eq]
        omega
      have hc2 : ¬ (pLt e a0 = true) := by
        simp only [pLt, decide_eq_true_eq]
        omega
      have hPnil : Pp l s = [] := by
        rw [Pp, hcons, List.takeWhile_cons, if_neg hc1]
      have hBl : Bp l s = l := by
        rw [Bp, hcons, List.dropWhile_cons, if_neg hc1]
      have hDl : Dp l s e = l := by
        rw [Dp, hBl, hcons, List.dropWhile_cons, if_neg hc2]
      rw [addClosed, hPnil, hDl]
      rw [if_neg (by simp : ¬ ([] : List Int).length % 2 = 1)]
      rw [if_neg (by omega : ¬ (l.length - l.length) % 2 = 1)]
      rw [hcons]
      have hne : a0 ≠ e := by omega
      simp [endMatch, hne]
    · rw [if_neg hB]
      have hBne : Bp l s ≠ [] := by
        intro hBnil
        have hPl : Pp l s = l := by
          have hpb := Pp_Bp l s
          rw [hBnil, List.append_nil] at hpb
          exact hpb
        have hmem : l.getLastD 0 ∈ Pp l s := by
          rw [hPl]
          exact getLastD_mem l hlne 0
        have := mem_Pp_lt hmem
        omega
      obtain ⟨b0, B', hBc⟩ := List.exists_cons_of_ne_nil hBne
      have hb0s : s ≤ b0 := Bp_head_ge hBc
      have hgetD : l.getD (Pp l s).length 0 = b0 := by
        have h1 := getD_append_length (Pp l s) (Bp l s) 0
        rw [Pp_Bp] at h1
        rw [h1, hBc]
        rfl
      have hDall : ∀ y ∈ Dp l s e, e ≤ y := fun y hy => mem_Dp_ge hp hy
      have hjD : ((Pp l s).length + (Mp l s e).length) % 2 = 1 → Dp l s e ≠ [] := by
        intro hj hDnil
        rw [hDnil] at hld
        simp only [List.length_nil, Nat.add_zero] at hld
        omega
      have hsub : l.length - (Dp l s e).length = (Pp l s).length + (Mp l s e).length := by
        omega
      simp only [searchIdx_zero, searchIdx_from]
      rw [hgetD]
      rw [addClosed, hsub]
      by_cases hsb : s < b0
      · rw [if_pos hsb]
        by_cases hio : (Pp l s).length % 2 = 1
        · rw [if_pos hio, if_pos hio]
          dsimp only
          rw [deleteLoop_eq, shape_keep]
          have hlo : Pp l s ≠ [] := by
            intro h
            rw [h] at hio
            simp at hio
          exact add_end_resolve (Pp l s) (Dp l s e) e (Pp l s).length rfl _ hjD hlo
            (fun x hx => lt_trans (mem_Pp_lt hx) hse) hDall
        · rw [if_neg hio, if_neg hio]
          dsimp only
          rw [deleteLoop_eq, shape_insert]
          have hloe : ∀ x ∈ Pp l s ++ [s], x < e := by
            intro x hx
            rcases List.mem_append.mp hx with hx | hx
            · exact lt_trans (mem_Pp_lt hx) hse
            · simp at hx
              omega
          exact add_end_resolve (Pp l s ++ [s]) (Dp l s e) e ((Pp l s).length + 1)
            (by simp) _ hjD (by simp) hloe hDall
      · rw [if_neg hsb]
        have hb0 : b0 = s := le_antisymm (not_lt.mp hsb) hb0s
        have hb0e : b0 < e := by omega
        by_cases hio : (Pp l s).length % 2 = 1
        · rw [if_pos hio, if_pos hio]
          dsimp only
          rw [deleteLoop_eq, shape_erase l s e hBc hb0e]
          have hlo : Pp l s ≠ [] := by
            intro h
            rw [h] at hio
            simp at hio
          exact add_end_resolve (Pp l s) (Dp l s e) e (Pp l s).length rfl _ hjD hlo
            (fun x hx => lt_trans (mem_Pp_lt hx) hse) hDall
        · rw [if_neg hio, if_neg hio]
          dsimp only
          rw [deleteLoop_eq, shape_keep_past l s e hBc hb0 hb0e]
          have hloe : ∀ x ∈ Pp l s ++ [s], x < e := by
            intro x hx
            rcases List.mem_append.mp hx with hx | hx
            · exact lt_trans (mem_Pp_lt hx) hse
            · simp at hx
              omega
          exact add_end_resolve (Pp l s ++ [s]) (Dp l s e) e ((Pp l s).length + 1)
            (by simp) _ hjD (by simp) hloe hDall

theorem remove_eq_closed (l : List Int) (s e : Int) (hinv : EndpointInv l) (hse : s < e) :
    removeIntervalList l s e = removeClosed l s e := by
  obtain ⟨hlen, hp⟩ := hinv
  have hld := congrArg List.length (decomp l s e)
  rw [List.length_append, List.length_append] at hld
  rw [removeIntervalList, if_neg (not_le.mpr hse)]
  by_cases hA : l.length = 0 ∨ l.getLastD 0 < s
  · rw [if_pos hA]
    have hBnil : Bp l s = [] := by
      cases hBc : Bp l s with
      | nil => rfl
      | cons b t =>
        exfalso
        have hbl : b ∈ l := by
          have hpb := Pp_Bp l s
          rw [hBc] at hpb
          rw [← hpb]
          exact List.mem_append_right _ (List.mem_cons_self b t)
        rcases hA with h0 | hlast
        · rw [List.length_eq_zero] at h0
          rw [h0] at hbl
          simp at hbl
        · have h1 := pairwise_le_getLastD l hp b hbl 0
          have h2 := Bp_head_ge hBc
          omega
    have hPl : Pp l s = l := by
      have hpb := Pp_Bp l s
      rw [hBnil, List.append_nil] at hpb
      exact hpb
    have hDnil : Dp l s e = [] := by
      rw [Dp, hBnil]
      rfl
    rw [removeClosed, hDnil, hPl]
    have h0 : ¬ l.length % 2 = 1 := by omega
    rw [if_neg h0, if_neg (by simpa using h0)]
    simp
  · rw [if_neg hA]
    push_neg at hA
    obtain ⟨hl0, hlast⟩ := hA
    have hlne : l ≠ [] := by
      intro h
      rw [h] at hl0
      simp at hl0
    have hBne : Bp l s ≠ [] := by
      intro hBnil
      have hPl : Pp l s = l := by
        have hpb := Pp_Bp l s
        rw [hBnil, List.append_nil] at hpb
        exact hpb
      have hmem : l.getLastD 0 ∈ Pp l s := by
        rw [hPl]
        exact getLastD_mem l hlne 0
      have := mem_Pp_lt hmem
      omega
    obtain ⟨b0, B', hBc⟩ := List.exists_cons_of_ne_nil hBne
    have hb0s : s ≤ b0 := Bp_head_ge hBc
    have hgetD : l.getD (Pp l s).length 0 = b0 := by
      have h1 := getD_append_length (Pp l s) (Bp l s) 0
      rw [Pp_Bp] at h1
      rw [h1, hBc]
      rfl
    have hDall : ∀ y ∈ Dp l s e, e ≤ y := fun y hy => mem_Dp_ge hp hy
    have hjD : ((Pp l s).length + (Mp l s e).length) % 2 = 1 → Dp l s e ≠ [] := by
      intro hj hDnil
      rw [hDnil] at hld
      simp only [List.length_nil, Nat.add_zero] at hld
      omega
    have hsub : l.length - (Dp l s e).length = (Pp l s).length + (Mp l s e).length := by
      omega
    simp only [searchIdx_zero, searchIdx_from]
    rw [hgetD]
    rw [removeClosed, hsub]
    by_cases hsb : s < b0
    · rw [if_pos hsb]
      by_cases hio : (Pp l s).length % 2 = 1
      · rw [if_pos hio, if_pos hio]
        dsimp only
        rw [deleteLoop_eq, shape_insert]
        exact remove_end_resolve (Pp l s ++ [s]) (Dp l s e) e ((Pp l s).length + 1)
          (by simp) _ hjD hDall
      · rw [if_neg hio, if_neg hio]
        dsimp only
        rw [deleteLoop_eq, shape_keep]
        exact remove_end_resolve (Pp l s) (Dp l s e) e (Pp l s).length rfl _ hjD hDall
    · rw [if_neg hsb]
      have hb0 : b0 = s := le_antisymm (not_lt.mp hsb) hb0s
      have hb0e : b0 < e := by omega
      by_cases hio : (Pp l s).length % 2 = 1
      · rw [if_pos hio, if_pos hio]
        dsimp only
        rw [deleteLoop_eq, shape_keep_past l s e hBc hb0 hb0e]
        exact remove_end_resolve (Pp l s ++ [s]) (Dp l s e) e ((Pp l s).length + 1)
          (by simp) _ hjD hDall
      · rw [if_neg hio, if_neg hio]
        dsimp only
        rw [deleteLoop_eq, shape_erase l s e hBc hb0e]
        exact remove_end_resolve (Pp l s) (Dp l s e) e (Pp l s).length rfl _ hjD hDall

/-! ## The closed forms preserve the invariant -/

theorem pairwise_Pp {l : List Int} (s : Int) (hp : l.Pairwise (· < ·)) :
    (Pp l s).Pairwise (· < ·) := by
  have h2 : (Pp l s ++ Bp l s).Pairwise (· < ·) := by
    rw [Pp_Bp]; exact hp
  exact (List.pairwise_append.mp h2).1

theorem mem_Mp_ge {l : List Int} {s e x : Int} (hp : l.Pairwise (· < ·))
    (hx : x ∈ Mp l s e) : s ≤ x := by
  have hxB : x ∈ Bp l s := by
    rw [← Mp_Dp l s e]
    exact List.mem_append_left _ hx
  exact mem_Bp_ge hp hxB

theorem mem_endMatch {D : List Int} {e y : Int} (hy : y ∈ endMatch D e) :
    y = e ∨ y ∈ D := by
  cases D with
  | nil =>
    simp [endMatch] at hy
    exact Or.inl hy
  | cons d t =>
    rw [endMatch] at hy
    by_cases hde : d = e
    · rw [if_pos hde] at hy
      exact Or.inr (List.mem_cons_of_mem d hy)
    · rw [if_neg hde] at hy
      rcases List.mem_cons.mp hy with rfl | hy
      · exact Or.inl rfl
      · exact Or.inr hy

theorem pairwise_endMatch {l : List Int} {s e : Int} (hp : l.Pairwise (· < ·)) :
    (endMatch (Dp l s e) e).Pairwise (· < ·) := by
  have hDp := pairwise_Dp s e hp
  cases hDc : Dp l s e with
  | nil => simp [endMatch]
  | cons d t =>
    rw [hDc] at hDp
    rw [endMatch]
    by_cases hde : d = e
    · rw [if_pos hde]
      exact (List.pairwise_cons.mp hDp).2
    · rw [if_neg hde]
      have hed : e < d := by
        have := Dp_head_ge hDc
        omega
      rw [List.pairwise_cons]
      refine ⟨?_, hDp⟩
      intro y hy
      rcases List.mem_cons.mp hy with rfl | hy
      · exact hed
      · exact lt_trans hed ((List.pairwise_cons.mp hDp).1 y hy)

theorem closed_parts_pairwise (l : List Int) (s e : Int) (hp : l.Pairwise (· < ·))
    (hse : s < e) (lo hi : List Int)
    (hlo : lo = Pp l s ∨ lo = Pp l s ++ [s])
    (hhi : hi = Dp l s e ∨ hi = endMatch (Dp l s e) e) :
    (lo ++ hi).Pairwise (· < ·) := by
  have hPp := pairwise_Pp s hp
  have hloP : lo.Pairwise (· < ·) := by
    rcases hlo with rfl | rfl
    · exact hPp
    · rw [List.pairwise_append]
      refine ⟨hPp, List.pairwise_singleton _ _, ?_⟩
      intro x hx y hy
      simp at hy
      rw [hy]
      exact mem_Pp_lt hx
  have hlo_lt : ∀ x ∈ lo, x < e := by
    intro x hx
    rcases hlo with rfl | rfl
    · exact lt_trans (mem_Pp_lt hx) hse
    · rcases List.mem_append.mp hx with hx | hx
      · exact lt_trans (mem_Pp_lt hx) hse
      · simp at hx
        omega
  have hhi_ge : ∀ y ∈ hi, e ≤ y := by
    intro y hy
    rcases hhi with rfl | rfl
    · exact mem_Dp_ge hp hy
    · rcases mem_endMatch hy with rfl | hy
      · exact le_refl y
      · exact mem_Dp_ge hp hy
  have hhiP : hi.Pairwise (· < ·) := by
    rcases hhi with rfl | rfl
    · exact pairwise_Dp s e hp
    · exact pairwise_endMatch hp
  rw [List.pairwise_append]
  exact ⟨hloP, hhiP, fun x hx y hy => lt_of_lt_of_le (hlo_lt x hx) (hhi_ge y hy)⟩

theorem addClosed_length (l : List Int) (s e : Int) (hlen : l.length % 2 = 0) :
    (addClosed l s e).length % 2 = 0 := by
  have hld := congrArg List.length (decomp l s e)
  rw [List.length_append, List.length_append] at hld
  rw [addClosed, List.length_append]
  split <;> rename_i h1 <;> split <;> rename_i h2
  · omega
  · rcases hDc : Dp l s e with _ | ⟨d, t⟩
    · simp only [hDc, endMatch, List.length_nil, List.length_cons, List.length_append] at *
      omega
    · rw [endMatch]
      by_cases hde : d = e
      · rw [if_pos hde]
        simp only [hDc, List.length_cons, List.length_nil, List.length_append] at *
        omega
      · rw [if_neg hde]
        simp only [hDc, List.length_cons, List.length_nil, List.length_append] at *
        omega
  · simp only [List.length_append, List.length_cons, List.length_nil]
    omega
  · rcases hDc : Dp l s e with _ | ⟨d, t⟩
    · simp only [hDc, endMatch, List.length_nil, List.length_cons, List.length_append] at *
      omega
    · rw [endMatch]
      by_cases hde : d = e
      · rw [if_pos hde]
        simp only [hDc, List.length_cons, List.length_nil, List.length_append] at *
        omega
      · rw [if_neg hde]
        simp only [hDc, List.length_cons, List.length_nil, List.length_append] at *
        omega

theorem removeClosed_length (l : List Int) (s e : Int) (hlen : l.length % 2 = 0) :
    (removeClosed l s e).length % 2 = 0 := by
  have hld := congrArg List.length (decomp l s e)
  rw [List.length_append, List.length_append] at hld
  rw [removeClosed, List.length_append]
  split <;> rename_i h1 <;> split <;> rename_i h2
  · rcases hDc : Dp l s e with _ | ⟨d, t⟩
    · simp only [hDc, endMatch, List.length_nil, List.length_cons, List.length_append] at *
      omega
    · rw [endMatch]
      by_cases hde : d = e
      · rw [if_pos hde]
        simp only [hDc, List.length_cons, List.length_nil, List.length_append] at *
        omega
      · rw [if_neg hde]
        simp only [hDc, List.length_cons, List.length_nil, List.length_append] at *
        omega
  · simp only [List.length_append, List.length_cons, List.length_nil]
    omega
  · rcases hDc : Dp l s e with _ | ⟨d, t⟩
    · simp only [hDc, endMatch, List.length_nil, List.length_cons, List.length_append] at *
      omega
    · rw [endMatch]
      by_cases hde : d = e
      · rw [if_pos hde]
        simp only [hDc, List.length_cons, List.length_nil, List.length_append] at *
        omega
      · rw [if_neg hde]
        simp only [hDc, List.length_cons, List.length_nil, List.length_append] at *
        omega
  · omega

theorem addClosed_inv (l : List Int) (s e : Int) (hinv : EndpointInv l) (hse : s < e) :
    EndpointInv (addClosed l s e) := by
  obtain ⟨hlen, hp⟩ := hinv
  refine ⟨addClosed_length l s e hlen, ?_⟩
  rw [addClosed]
  apply closed_parts_pairwise l s e hp hse
  · split
    · exact Or.inl rfl
    · exact Or.inr rfl
  · split
    · exact Or.inl rfl
    · exact Or.inr rfl

theorem removeClosed_inv (l : List Int) (s e : Int) (hinv : EndpointInv l) (hse : s < e) :
    EndpointInv (removeClosed l s e) := by
  obtain ⟨hlen, hp⟩ := hinv
  refine ⟨removeClosed_length l s e hlen, ?_⟩
  rw [removeClosed]
  apply closed_parts_pairwise l s e hp hse
  · split
    · exact Or.inr rfl
    · exact Or.inl rfl
  · split
    · exact Or.inr rfl
    · exact Or.inl rfl

/-! ## Membership via endpoint-counting parity -/

theorem memIS_false_of_lt : ∀ (r : List Int) (x : Int), (∀ y ∈ r, x < y) → memIS r x = false
  | [], _, _ => rfl
  | [_], _, _ => rfl
  | a :: b :: t, x, h => by
    have hxa : ¬ a ≤ x := not_le.mpr (h a (by simp))
    rw [memIS, memIS_false_of_lt t x (fun y hy => h y (by simp [hy]))]
    simp [hxa]

theorem memIS_nil (x : Int) : memIS [] x = false := rfl

theorem memIS_cons2 (a b : Int) (r : List Int) (x : Int) :
    memIS (a :: b :: r) x = ((decide (a ≤ x) && decide (x < b)) || memIS r x) := rfl

theorem memIS_parity : ∀ (l : List Int), l.Pairwise (· < ·) → l.length % 2 = 0 →
    ∀ x : Int, memIS l x = decide (l.countP (fun y => decide (y ≤ x)) % 2 = 1)
  | [], _, _, x => by simp [memIS]
  | [a], _, hlen, x => by simp at hlen
  | a :: b :: r, hp, hlen, x => by
    have hab : a < b := (List.pairwise_cons.mp hp).1 b (by simp)
    have hpbr : (b :: r).Pairwise (· < ·) := (List.pairwise_cons.mp hp).2
    have hbr : ∀ y ∈ r, b < y := (List.pairwise_cons.mp hpbr).1
    have hpr : r.Pairwise (· < ·) := (List.pairwise_cons.mp hpbr).2
    have hlenr : r.length % 2 = 0 := by
      simp only [List.length_cons] at hlen
      omega
    have ih := memIS_parity r hpr hlenr x
    rw [memIS, List.countP_cons, List.countP_cons]
    by_cases hbx : b ≤ x
    · have hax : a ≤ x := le_of_lt (lt_of_lt_of_le hab hbx)
      have hxb : ¬ x < b := not_lt.mpr hbx
      have e1 : decide (x < b) = false := by simp [hxb]
      have e2 : (if (decide (b ≤ x)) = true then 1 else 0) = 1 := by simp [hbx]
      have e3 : (if (decide (a ≤ x)) = true then 1 else 0) = 1 := by simp [hax]
      rw [ih, e1, e3, e2, Bool.and_false, Bool.false_or]
      exact decide_eq_decide.mpr (by omega)
    · have hcr : r.countP (fun y => decide (y ≤ x)) = 0 := by
        rw [List.countP_eq_zero]
        intro y hy
        have := hbr y hy
        simp
        omega
      have hmr : memIS r x = false := by
        apply memIS_false_of_lt
        intro y hy
        have := hbr y hy
        omega
      have e2 : (if (decide (b ≤ x)) = true then 1 else 0) = 0 := by simp [hbx]
      by_cases hax : a ≤ x
      · have hxb : x < b := not_le.mp hbx
        have e1 : decide (a ≤ x) = true := by simp [hax]
        have e1b : decide (x < b) = true := by simp [hxb]
        have e3 : (if (decide (a ≤ x)) = true then 1 else 0) = 1 := by simp [hax]
        rw [hmr, hcr, e3, e2, e1, e1b]
        simp
      · have e1 : decide (a ≤ x) = false := by simp [hax]
        have e3 : (if (decide (a ≤ x)) = true then 1 else 0) = 0 := by simp [hax]
        rw [hmr, hcr, e3, e2, e1]
        simp

/-! ## Membership semantics of the closed forms -/

theorem countP_decomp (l : List Int) (s e : Int) (p : Int → Bool) :
    l.countP p = (Pp l s).countP p + (Mp l s e).countP p + (Dp l s e).countP p := by
  have h := congrArg (List.countP p) (decomp l s e)
  rw [List.countP_append, List.countP_append] at h
  omega

theorem addClosed_memIS (l : List Int) (s e : Int) (hinv : EndpointInv l) (hse : s < e)
    (x : Int) :
    memIS (addClosed l s e) x = (memIS l x || (decide (s ≤ x) && decide (x < e))) := by
  have hinvC := addClosed_inv l s e hinv hse
  obtain ⟨hlen, hp⟩ := hinv
  rw [memIS_parity (addClosed l s e) hinvC.2 hinvC.1 x, memIS_parity l hp hlen x]
  have hld := congrArg List.length (decomp l s e)
  rw [List.length_append, List.length_append] at hld
  have hcnt := countP_decomp l s e (fun y => decide (y ≤ x))
  have hsub : l.length - (Dp l s e).length = (Pp l s).length + (Mp l s e).length := by
    omega
  rw [hcnt, addClosed, hsub, List.countP_append]
  by_cases hxe : x < e
  · have hhi0 : (if ((Pp l s).length + (Mp l s e).length) % 2 = 1 then Dp l s e
        else endMatch (Dp l s e) e).countP (fun y => decide (y ≤ x)) = 0 := by
      rw [List.countP_eq_zero]
      intro y hy
      have hye : e ≤ y := by
        split at hy
        · exact mem_Dp_ge hp hy
        · rcases mem_endMatch hy with rfl | hy2
          · exact le_refl y
          · exact mem_Dp_ge hp hy2
      simp
      omega
    have hCD0 : (Dp l s e).countP (fun y => decide (y ≤ x)) = 0 := by
      rw [List.countP_eq_zero]
      intro y hy
      have := mem_Dp_ge hp hy
      simp
      omega
    rw [hhi0, hCD0]
    by_cases hxs : s ≤ x
    · have hCP : (Pp l s).countP (fun y => decide (y ≤ x)) = (Pp l s).length := by
        rw [List.countP_eq_length]
        intro y hy
        have := mem_Pp_lt hy
        simp
        omega
      have e1 : decide (s ≤ x) = true := by simp [hxs]
      have e2 : decide (x < e) = true := by simp [hxe]
      rw [e1, e2, show ((true : Bool) && true) = true from rfl, Bool.or_true]
      split <;> rename_i h1
      · rw [decide_eq_true_eq]
        omega
      · have hcs1 : ([s].countP (fun y => decide (y ≤ x))) = 1 := by
          simp [List.countP_cons, hxs]
        have happ := List.countP_append (fun y => decide (y ≤ x)) (Pp l s) [s]
        rw [decide_eq_true_eq]
        omega
    · have hxs' : x < s := not_le.mp hxs
      have hCM0 : (Mp l s e).countP (fun y => decide (y ≤ x)) = 0 := by
        rw [List.countP_eq_zero]
        intro y hy
        have := mem_Mp_ge hp hy
        simp
        omega
      have e1 : decide (s ≤ x) = false := by simp; omega
      rw [e1, Bool.false_and, Bool.or_false, hCM0]
      split <;> rename_i h1
      · exact decide_eq_decide.mpr (by omega)
      · have hcs0 : ([s].countP (fun y => decide (y ≤ x))) = 0 := by
          simp [List.countP_cons]
          omega
        have happ := List.countP_append (fun y => decide (y ≤ x)) (Pp l s) [s]
        exact decide_eq_decide.mpr (by omega)
  · have hex : e ≤ x := not_lt.mp hxe
    have hCP : (Pp l s).countP (fun y => decide (y ≤ x)) = (Pp l s).length := by
      rw [List.countP_eq_length]
      intro y hy
      have := mem_Pp_lt hy
      simp
      omega
    have hCM : (Mp l s e).countP (fun y => decide (y ≤ x)) = (Mp l s e).length := by
      rw [List.countP_eq_length]
      intro y hy
      have := mem_Mp_lt hy
      simp
      omega
    have hcs1 : ([s].countP (fun y => decide (y ≤ x))) = 1 := by
      simp [List.countP_cons]
      omega
    have hEM : (endMatch (Dp l s e) e).countP (fun y => decide (y ≤ x)) % 2
        = (1 + (Dp l s e).countP (fun y => decide (y ≤ x))) % 2 := by
      have hce : decide (e ≤ x) = true := by simp [hex]
      rcases hDc : Dp l s e with _ | ⟨d, t⟩
      · simp [endMatch, List.countP_cons, hex]
      · by_cases hde : d = e
        · have hdx : decide (d ≤ x) = true := by rw [hde]; exact hce
          have hcount : (d :: t).countP (fun y => decide (y ≤ x))
              = t.countP (fun y => decide (y ≤ x)) + 1 := by
            simp [List.countP_cons, hdx]
          rw [show endMatch (d :: t) e = t from by rw [endMatch, if_pos hde], hcount]
          omega
        · rw [show endMatch (d :: t) e = e :: d :: t from by rw [endMatch, if_neg hde]]
          have hcount2 : (e :: d :: t).countP (fun y => decide (y ≤ x))
              = (d :: t).countP (fun y => decide (y ≤ x)) + 1 := by
            rw [List.countP_cons (fun y => decide (y ≤ x)) e (d :: t)]
            simp [hce]
          rw [hcount2]
          omega
    have e2 : decide (x < e) = false := by simp [hxe]
    rw [e2, Bool.and_false, Bool.or_false, hCM]
    split <;> rename_i h1 <;> split <;> rename_i h2
    · exact decide_eq_decide.mpr (by omega)
    · exact decide_eq_decide.mpr (by omega)
    · have happ := List.countP_append (fun y => decide (y ≤ x)) (Pp l s) [s]
      exact decide_eq_decide.mpr (by omega)
    · have happ := List.countP_append (fun y => decide (y ≤ x)) (Pp l s) [s]
      exact decide_eq_decide.mpr (by omega)

theorem removeClosed_memIS (l : List Int) (s e : Int) (hinv : EndpointInv l) (hse : s < e)
    (x : Int) :
    memIS (removeClosed l s e) x =
      (memIS l x && !(decide (s ≤ x) && decide (x < e))) := by
  have hinvC := removeClosed_inv l s e hinv hse
  obtain ⟨hlen, hp⟩ := hinv
  rw [memIS_parity (removeClosed l s e) hinvC.2 hinvC.1 x, memIS_parity l hp hlen x]
  have hld := congrArg List.length (decomp l s e)
  rw [List.length_append, List.length_append] at hld
  have hcnt := countP_decomp l s e (fun y => decide (y ≤ x))
  have hsub : l.length - (Dp l s e).length = (Pp l s).length + (Mp l s e).length := by
    omega
  rw [hcnt, removeClosed, hsub, List.countP_append]
  by_cases hxe : x < e
  · have hhi0 : (if ((Pp l s).length + (Mp l s e).length) % 2 = 1
        then endMatch (Dp l s e) e else Dp l s e).countP (fun y => decide (y ≤ x)) = 0 := by
      rw [List.countP_eq_zero]
      intro y hy
      have hye : e ≤ y := by
        split at hy
        · rcases mem_endMatch hy with rfl | hy2
          · exact le_refl y
          · exact mem_Dp_ge hp hy2
        · exact mem_Dp_ge hp hy
      simp
      omega
    have hCD0 : (Dp l s e).countP (fun y => decide (y ≤ x)) = 0 := by
      rw [List.countP_eq_zero]
      intro y hy
      have := mem_Dp_ge hp hy
      simp
      omega
    rw [hhi0, hCD0]
    by_cases hxs : s ≤ x
    · have hCP : (Pp l s).countP (fun y => decide (y ≤ x)) = (Pp l s).length := by
        rw [List.countP_eq_length]
        intro y hy
        have := mem_Pp_lt hy
        simp
        omega
      have e1 : decide (s ≤ x) = true := by simp [hxs]
      have e2 : decide (x < e) = true := by simp [hxe]
      rw [e1, e2, show ((true : Bool) && true) = true from rfl, Bool.not_true,
        Bool.and_false]
      split <;> rename_i h1
      · have hcs1 : ([s].countP (fun y => decide (y ≤ x))) = 1 := by
          simp [List.countP_cons, hxs]
        have happ := List.countP_append (fun y => decide (y ≤ x)) (Pp l s) [s]
        rw [decide_eq_false_iff_not]
        omega
      · rw [decide_eq_false_iff_not]
        omega
    · have hxs' : x < s := not_le.mp hxs
      have hCM0 : (Mp l s e).countP (fun y => decide (y ≤ x)) = 0 := by
        rw [List.countP_eq_zero]
        intro y hy
        have := mem_Mp_ge hp hy
        simp
        omega
      have e1 : decide (s ≤ x) = false := by simp; omega
      rw [e1, Bool.false_and, Bool.not_false, Bool.and_true, hCM0]
      split <;> rename_i h1
      · have hcs0 : ([s].countP (fun y => decide (y ≤ x))) = 0 := by
          simp [List.countP_cons]
          omega
        have happ := List.countP_append (fun y => decide (y ≤ x)) (Pp l s) [s]
        exact decide_eq_decide.mpr (by omega)
      · exact decide_eq_decide.mpr (by omega)
  · have hex : e ≤ x := not_lt.mp hxe
    have hCP : (Pp l s).countP (fun y => decide (y ≤ x)) = (Pp l s).length := by
      rw [List.countP_eq_length]
      intro y hy
      have := mem_Pp_lt hy
      simp
      omega
    have hCM : (Mp l s e).countP (fun y => decide (y ≤ x)) = (Mp l s e).length := by
      rw [List.countP_eq_length]
      intro y hy
      have := mem_Mp_lt hy
      simp
      omega
    have hcs1 : ([s].countP (fun y => decide (y ≤ x))) = 1 := by
      simp [List.countP_cons]
      omega
    have hEM : (endMatch (Dp l s e) e).countP (fun y => decide (y ≤ x)) % 2
        = (1 + (Dp l s e).countP (fun y => decide (y ≤ x))) % 2 := by
      have hce : decide (e ≤ x) = true := by simp [hex]
      rcases hDc : Dp l s e with _ | ⟨d, t⟩
      · simp [endMatch, List.countP_cons, hex]
      · by_cases hde : d = e
        · have hdx : decide (d ≤ x) = true := by rw [hde]; exact hce
          have hcount : (d :: t).countP (fun y => decide (y ≤ x))
              = t.countP (fun y => decide (y ≤ x)) + 1 := by
            simp [List.countP_cons, hdx]
          rw [show endMatch (d :: t) e = t from by rw [endMatch, if_pos hde], hcount]
          omega
        · rw [show endMatch (d :: t) e = e :: d :: t from by rw [endMatch, if_neg hde]]
          have hcount2 : (e :: d :: t).countP (fun y => decide (y ≤ x))
              = (d :: t).countP (fun y => decide (y ≤ x)) + 1 := by
            rw [List.countP_cons (fun y => decide (y ≤ x)) e (d :: t)]
            simp [hce]
          rw [hcount2]
          omega
    have e2 : decide (x < e) = false := by simp [hxe]
    rw [e2, Bool.and_false, Bool.not_false, Bool.and_true, hCM]
    split <;> rename_i h1 <;> split <;> rename_i h2
    · have happ := List.countP_append (fun y => decide (y ≤ x)) (Pp l s) [s]
      exact decide_eq_decide.mpr (by omega)
    · have happ := List.countP_append (fun y => decide (y ≤ x)) (Pp l s) [s]
      exact decide_eq_decide.mpr (by omega)
    · exact decide_eq_decide.mpr (by omega)
    · exact decide_eq_decide.mpr (by omega)

/-! ## Invariant endpoint lists are determined by their members -/

theorem memIS_canon : ∀ (l1 : List Int), EndpointInv l1 → ∀ (l2 : List Int), EndpointInv l2 →
    (∀ x, memIS l1 x = memIS l2 x) → l1 = l2
  | [], _, l2, h2, hmem => by
    cases l2 with
    | nil => rfl
    | cons c t2 =>
      cases t2 with
      | nil => exact absurd h2.1 (by simp)
      | cons d r2 =>
        exfalso
        have hcd : c < d := (List.pairwise_cons.mp h2.2).1 d (by simp)
        have := hmem c
        rw [memIS_nil, memIS_cons2] at this
        simp [hcd] at this
  | [a], h1, _, _, _ => absurd h1.1 (by simp)
  | a :: b :: r1, h1, l2, h2, hmem => by
    have hab : a < b := (List.pairwise_cons.mp h1.2).1 b (by simp)
    cases l2 with
    | nil =>
      exfalso
      have := hmem a
      rw [memIS_cons2, memIS_nil] at this
      simp [hab] at this
    | cons c t2 =>
      cases t2 with
      | nil => exact absurd h2.1 (by simp)
      | cons d r2 =>
        have hcd : c < d := (List.pairwise_cons.mp h2.2).1 d (by simp)
        have hbr1 : ∀ y ∈ r1, b < y :=
          (List.pairwise_cons.mp (List.pairwise_cons.mp h1.2).2).1
        have hdr2 : ∀ y ∈ r2, d < y :=
          (List.pairwise_cons.mp (List.pairwise_cons.mp h2.2).2).1
        have hac : a = c := by
          by_contra hne
          rcases lt_or_gt_of_ne hne with hlt | hgt
          · have := hmem a
            rw [memIS_cons2, memIS_cons2] at this
            rw [memIS_false_of_lt r2 a (fun y hy => lt_trans (lt_trans hlt hcd) (hdr2 y hy))]
              at this
            simp [hab, hlt] at this
            omega
          · have := hmem c
            rw [memIS_cons2, memIS_cons2] at this
            rw [memIS_false_of_lt r1 c (fun y hy => lt_trans (lt_trans hgt hab) (hbr1 y hy))]
              at this
            simp [hcd] at this
            omega
        subst hac
        have hbd : b = d := by
          by_contra hne
          rcases lt_or_gt_of_ne hne with hlt | hgt
          · have := hmem b
            rw [memIS_cons2, memIS_cons2] at this
            rw [memIS_false_of_lt r1 b (fun y hy => hbr1 y hy)] at this
            rw [memIS_false_of_lt r2 b (fun y hy => lt_trans hlt (hdr2 y hy))] at this
            simp [hab, hlt] at this
            omega
          · have := hmem d
            rw [memIS_cons2, memIS_cons2] at this
            rw [memIS_false_of_lt r2 d (fun y hy => hdr2 y hy)] at this
            rw [memIS_false_of_lt r1 d (fun y hy => lt_trans hgt (hbr1 y hy))] at this
            simp [hcd, hgt] at this
            omega
        subst hbd
        have h1r : EndpointInv r1 := by
          refine ⟨?_, (List.pairwise_cons.mp (List.pairwise_cons.mp h1.2).2).2⟩
          have := h1.1
          simp only [List.length_cons] at this ⊢
          omega
        have h2r : EndpointInv r2 := by
          refine ⟨?_, (List.pairwise_cons.mp (List.pairwise_cons.mp h2.2).2).2⟩
          have := h2.1
          simp only [List.length_cons] at this ⊢
          omega
        have hmr : ∀ x, memIS r1 x = memIS r2 x := by
          intro x
          by_cases hxb : x < b
          · rw [memIS_false_of_lt r1 x (fun y hy => lt_trans hxb (hbr1 y hy)),
              memIS_false_of_lt r2 x (fun y hy => lt_trans hxb (hdr2 y hy))]
          · have := hmem x
            rw [memIS_cons2, memIS_cons2] at this
            have hxbf : decide (x < b) = false := by simp [hxb]
            rw [hxbf, Bool.and_false, Bool.false_or, Bool.false_or] at this
            exact this
        rw [memIS_canon r1 h1r r2 h2r hmr]

/-! ## Packaged facts about the transcribed algorithms -/

theorem addIntervalList_inv (l : List Int) (s e : Int) (hinv : EndpointInv l)
    (hse : s < e) : EndpointInv (addIntervalList l s e) := by
  rw [add_eq_closed l s e hinv hse]
  exact addClosed_inv l s e hinv hse

theorem removeIntervalList_inv (l : List Int) (s e : Int) (hinv : EndpointInv l)
    (hse : s < e) : EndpointInv (removeIntervalList l s e) := by
  rw [remove_eq_closed l s e hinv hse]
  exact removeClosed_inv l s e hinv hse

theorem addIntervalList_memIS (l : List Int) (s e : Int) (hinv : EndpointInv l)
    (hse : s < e) (x : Int) :
    memIS (addIntervalList l s e) x = (memIS l x || (decide (s ≤ x) && decide (x < e))) := by
  rw [add_eq_closed l s e hinv hse]
  exact addClosed_memIS l s e hinv hse x

theorem removeIntervalList_memIS (l : List Int) (s e : Int) (hinv : EndpointInv l)
    (hse : s < e) (x : Int) :
    memIS (removeIntervalList l s e) x =
      (memIS l x && !(decide (s ≤ x) && decide (x < e))) := by
  rw [remove_eq_closed l s e hinv hse]
  exact removeClosed_memIS l s e hinv hse x

/-! ## The enumeration of an invariant list -/

theorem toPairs_sep : ∀ (l : List Int), EndpointInv l →
    List.Chain' (fun p q : Int × Int => p.2 < q.1) (toPairs l) ∧
      ∀ p ∈ toPairs l, p.1 < p.2
  | [], _ => by simp [toPairs]
  | [a], h => absurd h.1 (by simp)
  | a :: b :: r, h => by
    have hab : a < b := (List.pairwise_cons.mp h.2).1 b (by simp)
    have hbr : ∀ y ∈ r, b < y :=
      (List.pairwise_cons.mp (List.pairwise_cons.mp h.2).2).1
    have hr : EndpointInv r := by
      refine ⟨?_, (List.pairwise_cons.mp (List.pairwise_cons.mp h.2).2).2⟩
      have := h.1
      simp only [List.length_cons] at this ⊢
      omega
    obtain ⟨ih1, ih2⟩ := toPairs_sep r hr
    constructor
    · rw [toPairs, List.chain'_cons']
      refine ⟨?_, ih1⟩
      intro q hq
      cases hrl : r with
      | nil => rw [hrl] at hq; simp [toPairs] at hq
      | cons c t =>
        cases t with
        | nil =>
          rw [hrl] at hq
          simp [toPairs] at hq
        | cons d t2 =>
          rw [hrl] at hq
          rw [toPairs] at hq
          simp only [List.head?_cons, Option.mem_def, Option.some_inj] at hq
          rw [← hq]
          exact hbr c (by rw [hrl]; simp)
    · intro p hp
      rw [toPairs] at hp
      rcases List.mem_cons.mp hp with rfl | hp
      · exact hab
      · exact ih2 p hp

/-! ## States reachable through the public mutation API -/

inductive Reachable : List Int → Prop where
  | empty : Reachable []
  | insert {l : List Int} {s e : Int} : Reachable l → s < e →
      Reachable (addIntervalList l s e)
  | remove {l : List Int} {s e : Int} : Reachable l → s < e →
      Reachable (removeIntervalList l s e)

theorem reachable_inv {l : List Int} (h : Reachable l) : EndpointInv l := by
  induction h with
  | empty => exact ⟨by simp, List.Pairwise.nil⟩
  | insert hr hse ih => exact addIntervalList_inv _ _ _ ih hse
  | remove hr hse ih => exact removeIntervalList_inv _ _ _ ih hse

/-! ## Idempotence of insertion -/

theorem addIntervalList_idem (l : List Int) (s e : Int) (hinv : EndpointInv l)
    (hse : s < e) :
    addIntervalList (addIntervalList l s e) s e = addIntervalList l s e := by
  have h1 := addIntervalList_inv l s e hinv hse
  apply memIS_canon _ (addIntervalList_inv _ s e h1 hse) _ h1
  intro x
  rw [addIntervalList_memIS _ s e h1 hse x, addIntervalList_memIS l s e hinv hse x,
    Bool.or_assoc, Bool.or_self]

/-! ## Disjoint removals are no-ops -/

theorem memIS_one (a x : Int) : memIS [a] x = false := rfl

/-- Whether any stored interval overlaps the half-open range from `s` to `e`. -/
def overlapsB (l : List Int) (s e : Int) : Bool :=
  (toPairs l).any (fun p => decide (p.1 < e) && decide (s < p.2))

theorem memIS_exists : ∀ (l : List Int) (x : Int), memIS l x = true →
    ∃ p ∈ toPairs l, p.1 ≤ x ∧ x < p.2
  | [], x, h => by rw [memIS_nil] at h; cases h
  | [a], x, h => by rw [memIS_one] at h; cases h
  | a :: b :: r, x, h => by
    rw [memIS_cons2] at h
    rcases Bool.or_eq_true_iff.mp h with h1 | h2
    · refine ⟨(a, b), by rw [toPairs]; simp, ?_, ?_⟩
      · have := Bool.and_eq_true_iff.mp h1
        exact of_decide_eq_true this.1
      · have := Bool.and_eq_true_iff.mp h1
        exact of_decide_eq_true this.2
    · obtain ⟨p, hp, hpx⟩ := memIS_exists r x h2
      exact ⟨p, by rw [toPairs]; exact List.mem_cons_of_mem _ hp, hpx⟩

theorem removeIntervalList_noop (l : List Int) (s e : Int) (hinv : EndpointInv l)
    (hse : s < e) (hov : overlapsB l s e = false) :
    removeIntervalList l s e = l := by
  apply memIS_canon _ (removeIntervalList_inv l s e hinv hse) _ hinv
  intro x
  rw [removeIntervalList_memIS l s e hinv hse x]
  cases hm : memIS l x with
  | false => simp
  | true =>
    obtain ⟨p, hp, hpx⟩ := memIS_exists l x hm
    have hnov : ¬ (p.1 < e ∧ s < p.2) := by
      intro hc
      have hany : (toPairs l).any (fun q => decide (q.1 < e) && decide (s < q.2)) = true :=
        List.any_eq_true.mpr ⟨p, hp, by simp [hc.1, hc.2]⟩
      rw [overlapsB] at hov
      rw [hany] at hov
      cases hov
    have hnot : ¬ (s ≤ x ∧ x < e) := fun hc =>
      hnov ⟨lt_of_le_of_lt hpx.1 hc.2, lt_of_le_of_lt hc.1 hpx.2⟩
    have hfb : (decide (s ≤ x) && decide (x < e)) = false := by
      cases hsx : decide (s ≤ x) with
      | false => simp
      | true =>
        have hsx2 : s ≤ x := of_decide_eq_true hsx
        have hxe : ¬ x < e := fun h2 => hnot ⟨hsx2, h2⟩
        simp [hxe]
    rw [hfb]
    simp

/-! ## The stateful program: interval list plus emitted log messages

The source methods log through `self._m_Logger`. We model the error and info
messages the program emits (`logger.error`, `logger.info`); `logger.debug`
messages are suppressed at the default INFO level and are not modelled. -/

inductive LogMsg where
  | error (msg : String)
  | info (msg : String)
deriving DecidableEq

structure ProgState where
  intervalList : List Int
  log : List LogMsg
deriving DecidableEq

/-- The for-loop of `printIntervals` (source lines 107-114): one formatted
pair string and one comma separator per stored interval. -/
def intervalPairStrings : List Int → List String
  | a :: b :: rest =>
      ("(" ++ toString a ++ ", " ++ toString b ++ ")") :: "," :: intervalPairStrings rest
  | _ => []

/-- The output string built by `printIntervals` (source lines 107-127): the
bracketed join of the pair strings, the trailing comma replaced by the closing
bracket when the list is nonempty. -/
def printIntervalsString (l : List Int) : String :=
  let outputList := "[" :: intervalPairStrings l
  let outputList2 :=
    if l.length = 0 then outputList ++ ["]"]
    else outputList.dropLast ++ ["]"]
  String.join outputList2

/-- `printIntervals` (source lines 81-130): appends the rendering to the log
at INFO level; the interval list is only read. -/
def printIntervals (st : ProgState) : ProgState :=
  { st with
    log := st.log ++ [LogMsg.info ("Intervals: " ++ printIntervalsString st.intervalList)] }

/-- `addInterval` as a state transformer (source lines 132-375): on
`start >= end` it reports the error (line 135) and leaves the list untouched;
otherwise it runs the list-level algorithm. -/
def addInterval (st : ProgState) (s e : Int) : ProgState :=
  if s ≥ e then { st with log := st.log ++ [LogMsg.error "Error - start >= end"] }
  else { st with intervalList := addIntervalList st.intervalList s e }

/-- `removeInterval` as a state transformer (source lines 377-582); note the
error text at line 382 differs from the one in `addInterval`. -/
def removeInterval (st : ProgState) (s e : Int) : ProgState :=
  if s ≥ e then { st with log := st.log ++ [LogMsg.error "Error: start >= end"] }
  else { st with intervalList := removeIntervalList st.intervalList s e }

/-- `clearList` (source lines 584-591): empties the list, then displays it. -/
def clearList (st : ProgState) : ProgState :=
  printIntervals { st with intervalList := [] }

def isErrorMsg : LogMsg → Bool
  | LogMsg.error _ => true
  | LogMsg.info _ => false

/-- The error entries of a log, in order. -/
def errorsOf (log : List LogMsg) : List LogMsg := log.filter isErrorMsg

/-- The spec-mandated rendering, stated from the spec's words (and the
docstring examples at source lines 97 and 123): pair strings separated by a
comma and a space. -/
def specRenderIntervals (ps : List (Int × Int)) : String :=
  "[" ++
    String.intercalate ", "
      (ps.map (fun p => "(" ++ toString p.1 ++ ", " ++ toString p.2 ++ ")")) ++ "]"

/-! ## Bounds-checked variants: every sequence access through Option

Python raises IndexError on an out-of-range subscript read or deletion. These
variants mirror the two mutation methods with every such access routed through
Option-valued indexing (`l[i]?`, `getLast?`, `head?`); `none` marks a read that
would raise. A deletion is always preceded in the source by a successful read
of the same index, so it needs no separate check. -/

def addIntervalListO (l : List Int) (s e : Int) : Option (List Int) :=
  if s ≥ e then some l
  else if l.length = 0 then some (l ++ [s, e])
  else do
    let lst ← l.getLast?
    if lst < s then some (l ++ [s, e])
    else do
      let hd ← l.head?
      if e < hd then some (s :: e :: l)
      else
        let i := searchIdx l s 0
        let j := searchIdx l e i
        do
          let vi ← l[i]?
          let p :=
            if s < vi then
              if i % 2 = 1 then (l, i) else (l.insertIdx i s, i + 1)
            else
              if i % 2 = 1 then (l.eraseIdx i, i) else (l, i + 1)
          let l2 := deleteLoop p.1 p.2 e
          let lst2 ← l2.getLast?
          if e > lst2 then some (l2 ++ [e])
          else do
            let vc ← l2[p.2]?
            if e < vc then
              some (if j % 2 = 1 then l2 else l2.insertIdx p.2 e)
            else
              some (if j % 2 = 1 then l2 else l2.eraseIdx p.2)

def removeIntervalListO (l : List Int) (s e : Int) : Option (List Int) :=
  if s ≥ e then some l
  else if l.length = 0 then some l
  else do
    let lst ← l.getLast?
    if lst < s then some l
    else
      let i := searchIdx l s 0
      let j := searchIdx l e i
      do
        let vi ← l[i]?
        let p :=
          if s < vi then
            if i % 2 = 1 then (l.insertIdx i s, i + 1) else (l, i)
          else
            if i % 2 = 1 then (l, i + 1) else (l.eraseIdx i, i)
        let l2 := deleteLoop p.1 p.2 e
        if p.2 ≥ l2.length then some l2
        else do
          let vc ← l2[p.2]?
          if e < vc then
            some (if j % 2 = 1 then l2.insertIdx p.2 e else l2)
          else
            some (if j % 2 = 1 then l2.eraseIdx p.2 else l2)

theorem getLast?_eq_getLastD (l : List Int) (h : l ≠ []) :
    l.getLast? = some (l.getLastD 0) := by
  rw [List.getLast?_eq_getLast l h, getLastD_nonempty l h]

theorem head?_eq_headD (l : List Int) (h : l ≠ []) :
    l.head? = some (l.headD 0) := by
  rw [List.head?_eq_head h, headD_nonempty l h]

theorem add_end_resolveO (lo D : List Int) (e : Int) (c : Nat) (hc : c = lo.length)
    (jodd : Prop) [Decidable jodd] (hlo : lo ≠ []) (hloe : ∀ x ∈ lo, x < e)
    (hD : ∀ y ∈ D, e ≤ y) :
    (do
      let lst2 ← (lo ++ D).getLast?
      if e > lst2 then some ((lo ++ D) ++ [e])
      else do
        let vc ← (lo ++ D)[c]?
        if e < vc then some (if jodd then lo ++ D else (lo ++ D).insertIdx c e)
        else some (if jodd then lo ++ D else (lo ++ D).eraseIdx c)) =
    some (if e > (lo ++ D).getLastD 0 then (lo ++ D) ++ [e]
      else if e < (lo ++ D).getD c 0 then
        (if jodd then lo ++ D else (lo ++ D).insertIdx c e)
      else (if jodd then lo ++ D else (lo ++ D).eraseIdx c)) := by
  have hne : lo ++ D ≠ [] := by
    intro h
    rcases List.append_eq_nil.mp h with ⟨h1, _⟩
    exact hlo h1
  rw [getLast?_eq_getLastD (lo ++ D) hne]
  simp only [Option.bind_eq_bind, Option.some_bind]
  by_cases hg : e > (lo ++ D).getLastD 0
  · rw [if_pos hg, if_pos hg]
  · rw [if_neg hg, if_neg hg]
    have hDne : D ≠ [] := by
      intro hDnil
      subst hDnil
      rw [List.append_nil] at hg
      exact hg (hloe _ (getLastD_mem lo hlo 0))
    have hclen : c < (lo ++ D).length := by
      rw [List.length_append, hc]
      have := List.length_pos.mpr hDne
      omega
    rw [List.getElem?_eq_getElem hclen]
    simp only [Option.bind_eq_bind, Option.some_bind]
    rw [getD_at (lo ++ D) c hclen]
    by_cases hv : e < (lo ++ D)[c]
    · rw [if_pos hv, if_pos hv]
    · rw [if_neg hv, if_neg hv]

theorem remove_end_resolveO (L : List Int) (e : Int) (c : Nat)
    (jodd : Prop) [Decidable jodd] :
    (if c ≥ L.length then some L
     else do
       let vc ← L[c]?
       if e < vc then some (if jodd then L.insertIdx c e else L)
       else some (if jodd then L.eraseIdx c else L)) =
    some (if c ≥ L.length then L
      else if e < L.getD c 0 then (if jodd then L.insertIdx c e else L)
      else (if jodd then L.eraseIdx c else L)) := by
  by_cases hg : c ≥ L.length
  · rw [if_pos hg, if_pos hg]
  · rw [if_neg hg, if_neg hg]
    have hclen : c < L.length := not_le.mp hg
    rw [List.getElem?_eq_getElem hclen]
    simp only [Option.bind_eq_bind, Option.some_bind]
    rw [getD_at L c hclen]
    by_cases hv : e < L[c]
    · rw [if_pos hv, if_pos hv]
    · rw [if_neg hv, if_neg hv]

theorem addIntervalListO_eq (l : List Int) (s e : Int) (hinv : EndpointInv l)
    (hse : s < e) : addIntervalListO l s e = some (addIntervalList l s e) := by
  obtain ⟨hlen, hp⟩ := hinv
  rw [addIntervalListO, addIntervalList, if_neg (not_le.mpr hse), if_neg (not_le.mpr hse)]
  by_cases h0 : l.length = 0
  · rw [if_pos h0, if_pos (Or.inl h0)]
  · rw [if_neg h0]
    have hlne : l ≠ [] := by
      intro h
      rw [h] at h0
      simp at h0
    rw [getLast?_eq_getLastD l hlne]
    simp only [Option.bind_eq_bind, Option.some_bind]
    by_cases hg : l.getLastD 0 < s
    · rw [if_pos hg, if_pos (Or.inr hg)]
    · rw [if_neg hg, if_neg (show ¬ (l.length = 0 ∨ l.getLastD 0 < s) from fun hA => hA.elim h0 hg)]
      rw [head?_eq_headD l hlne]
      simp only [Option.bind_eq_bind, Option.some_bind]
      by_cases hB : e < l.headD 0
      · rw [if_pos hB, if_pos hB]
      · rw [if_neg hB, if_neg hB]
        have hlast : s ≤ l.getLastD 0 := not_lt.mp hg
        have hBne : Bp l s ≠ [] := by
          intro hBnil
          have hPl : Pp l s = l := by
            have hpb := Pp_Bp l s
            rw [hBnil, List.append_nil] at hpb
            exact hpb
          have hmem : l.getLastD 0 ∈ Pp l s := by
            rw [hPl]
            exact getLastD_mem l hlne 0
          have := mem_Pp_lt hmem
          omega
        obtain ⟨b0, B', hBc⟩ := List.exists_cons_of_ne_nil hBne
        have hb0s : s ≤ b0 := Bp_head_ge hBc
        have hilt : (Pp l s).length < l.length := by
          have hpb := congrArg List.length (Pp_Bp l s)
          rw [List.length_append, hBc] at hpb
          simp only [List.length_cons] at hpb
          omega
        have hgetD : l.getD (Pp l s).length 0 = b0 := by
          have h1 := getD_append_length (Pp l s) (Bp l s) 0
          rw [Pp_Bp] at h1
          rw [h1, hBc]
          rfl
        have hgetE : l[(Pp l s).length] = b0 := by
          rw [← getD_at l _ hilt]
          exact hgetD
        have hDall : ∀ y ∈ Dp l s e, e ≤ y := fun y hy => mem_Dp_ge hp hy
        simp only [searchIdx_zero, searchIdx_from]
        rw [List.getElem?_eq_getElem hilt]
        simp only [Option.bind_eq_bind, Option.some_bind]
        rw [hgetE, hgetD]
        by_cases hsb : s < b0
        · rw [if_pos hsb]
          by_cases hio : (Pp l s).length % 2 = 1
          · rw [if_pos hio]
            dsimp only
            rw [deleteLoop_eq, shape_keep]
            have hlo : Pp l s ≠ [] := by
              intro h
              rw [h] at hio
              simp at hio
            exact add_end_resolveO (Pp l s) (Dp l s e) e (Pp l s).length rfl _ hlo
              (fun x hx => lt_trans (mem_Pp_lt hx) hse) hDall
          · rw [if_neg hio]
            dsimp only
            rw [deleteLoop_eq, shape_insert]
            have hloe : ∀ x ∈ Pp l s ++ [s], x < e := by
              intro x hx
              rcases List.mem_append.mp hx with hx | hx
              · exact lt_trans (mem_Pp_lt hx) hse
              · simp at hx
                omega
            exact add_end_resolveO (Pp l s ++ [s]) (Dp l s e) e ((Pp l s).length + 1)
              (by simp) _ (by simp) hloe hDall
        · rw [if_neg hsb]
          have hb0 : b0 = s := le_antisymm (not_lt.mp hsb) hb0s
          have hb0e : b0 < e := by omega
          by_cases hio : (Pp l s).length % 2 = 1
          · rw [if_pos hio]
            dsimp only
            rw [deleteLoop_eq, shape_erase l s e hBc hb0e]
            have hlo : Pp l s ≠ [] := by
              intro h
              rw [h] at hio
              simp at hio
            exact add_end_resolveO (Pp l s) (Dp l s e) e (Pp l s).length rfl _ hlo
              (fun x hx => lt_trans (mem_Pp_lt hx) hse) hDall
          · rw [if_neg hio]
            dsimp only
            rw [deleteLoop_eq, shape_keep_past l s e hBc hb0 hb0e]
            have hloe : ∀ x ∈ Pp l s ++ [s], x < e := by
              intro x hx
              rcases List.mem_append.mp hx with hx | hx
              · exact lt_trans (mem_Pp_lt hx) hse
              · simp at hx
                omega
            exact add_end_resolveO (Pp l s ++ [s]) (Dp l s e) e ((Pp l s).length + 1)
              (by simp) _ (by simp) hloe hDall

theorem removeIntervalListO_eq (l : List Int) (s e : Int) (hinv : EndpointInv l)
    (hse : s < e) : removeIntervalListO l s e = some (removeIntervalList l s e) := by
  obtain ⟨hlen, hp⟩ := hinv
  rw [removeIntervalListO, removeIntervalList, if_neg (not_le.mpr hse),
    if_neg (not_le.mpr hse)]
  by_cases h0 : l.length = 0
  · rw [if_pos h0, if_pos (Or.inl h0)]
  · rw [if_neg h0]
    have hlne : l ≠ [] := by
      intro h
      rw [h] at h0
      simp at h0
    rw [getLast?_eq_getLastD l hlne]
    simp only [Option.bind_eq_bind, Option.some_bind]
    by_cases hg : l.getLastD 0 < s
    · rw [if_pos hg, if_pos (Or.inr hg)]
    · rw [if_neg hg, if_neg (show ¬ (l.length = 0 ∨ l.getLastD 0 < s) from fun hA => hA.elim h0 hg)]
      have hlast : s ≤ l.getLastD 0 := not_lt.mp hg
      have hBne : Bp l s ≠ [] := by
        intro hBnil
        have hPl : Pp l s = l := by
          have hpb := Pp_Bp l s
          rw [hBnil, List.append_nil] at hpb
          exact hpb
        have hmem : l.getLastD 0 ∈ Pp l s := by
          rw [hPl]
          exact getLastD_mem l hlne 0
        have := mem_Pp_lt hmem
        omega
      obtain ⟨b0, B', hBc⟩ := List.exists_cons_of_ne_nil hBne
      have hb0s : s ≤ b0 := Bp_head_ge hBc
      have hilt : (Pp l s).length < l.length := by
        have hpb := congrArg List.length (Pp_Bp l s)
        rw [List.length_append, hBc] at hpb
        simp only [List.length_cons] at hpb
        omega
      have hgetD : l.getD (Pp l s).length 0 = b0 := by
        have h1 := getD_append_length (Pp l s) (Bp l s) 0
        rw [Pp_Bp] at h1
        rw [h1, hBc]
        rfl
      have hgetE : l[(Pp l s).length] = b0 := by
        rw [← getD_at l _ hilt]
        exact hgetD
      simp only [searchIdx_zero, searchIdx_from]
      rw [List.getElem?_eq_getElem hilt]
      simp only [Option.bind_eq_bind, Option.some_bind]
      rw [hgetE, hgetD]
      by_cases hsb : s < b0
      · rw [if_pos hsb]
        by_cases hio : (Pp l s).length % 2 = 1
        · rw [if_pos hio]
          dsimp only
          rw [deleteLoop_eq, shape_insert]
          exact remove_end_resolveO ((Pp l s ++ [s]) ++ Dp l s e) e ((Pp l s).length + 1) _
        · rw [if_neg hio]
          dsimp only
          rw [deleteLoop_eq, shape_keep]
          exact remove_end_resolveO (Pp l s ++ Dp l s e) e (Pp l s).length _
      · rw [if_neg hsb]
        have hb0 : b0 = s := le_antisymm (not_lt.mp hsb) hb0s
        have hb0e : b0 < e := by omega
        by_cases hio : (Pp l s).length % 2 = 1
        · rw [if_pos hio]
          dsimp only
          rw [deleteLoop_eq, shape_keep_past l s e hBc hb0 hb0e]
          exact remove_end_resolveO ((Pp l s ++ [s]) ++ Dp l s e) e ((Pp l s).length + 1) _
        · rw [if_neg hio]
          dsimp only
          rw [deleteLoop_eq, shape_erase l s e hBc hb0e]
          exact remove_end_resolveO (Pp l s ++ Dp l s e) e (Pp l s).length _

/-! ## The claims -/

/-- C1: starting from the empty set, after any sequence of insert and remove calls
with each start < end, the stored endpoint sequence has even length and is strictly
increasing, so the intervals reported by the enumeration have strictly increasing,
non-touching boundaries (each stored end is below the next stored start). -/
theorem spec_c1_invariant (l : List Int) (h : Reachable l) :
    EndpointInv l ∧ List.Chain' (fun p q : Int × Int => p.2 < q.1) (toPairs l) := by
  have hinv := reachable_inv h
  exact ⟨hinv, (toPairs_sep l hinv).1⟩

theorem spec_c1_invariant_witness :
    EndpointInv (removeIntervalList (addIntervalList (addIntervalList [] 1 5) 7 9) 2 3) ∧
      List.Chain' (fun p q : Int × Int => p.2 < q.1)
        (toPairs (removeIntervalList (addIntervalList (addIntervalList [] 1 5) 7 9) 2 3)) :=
  spec_c1_invariant _
    (Reachable.remove
      (Reachable.insert (Reachable.insert Reachable.empty (by decide)) (by decide))
      (by decide))

/-- C2: on an invariant state, insert of a valid interval produces an invariant state
whose represented set of integers is the old set unioned with the half-open range
from start to end (overlapping and touching intervals merged); hence sequences of
inserts produce the merged sorted union. -/
theorem spec_c2_insert_union (l : List Int) (s e x : Int) (hinv : EndpointInv l)
    (hse : s < e) :
    EndpointInv (addIntervalList l s e) ∧
      memIS (addIntervalList l s e) x
        = (memIS l x || (decide (s ≤ x) && decide (x < e))) :=
  ⟨addIntervalList_inv l s e hinv hse, addIntervalList_memIS l s e hinv hse x⟩

theorem spec_c2_insert_union_witness :
    EndpointInv (addIntervalList [1, 3, 8, 10] 2 9) ∧
      memIS (addIntervalList [1, 3, 8, 10] 2 9) 5
        = (memIS [1, 3, 8, 10] 5 || (decide ((2 : Int) ≤ 5) && decide ((5 : Int) < 9))) :=
  spec_c2_insert_union [1, 3, 8, 10] 2 9 5 (by decide) (by decide)

/-- C3: on an invariant state, remove of a valid interval produces an invariant state
whose represented set is the old set minus the half-open range from start to end;
and a removal disjoint from every stored interval leaves the stored list unchanged
(a no-op, not an error). -/
theorem spec_c3_remove_difference (l : List Int) (s e x : Int) (l2 : List Int)
    (s2 e2 : Int) (hinv : EndpointInv l) (hse : s < e)
    (hinv2 : EndpointInv l2) (hse2 : s2 < e2) (hov : overlapsB l2 s2 e2 = false) :
    EndpointInv (removeIntervalList l s e) ∧
      memIS (removeIntervalList l s e) x
        = (memIS l x && !(decide (s ≤ x) && decide (x < e))) ∧
      removeIntervalList l2 s2 e2 = l2 :=
  ⟨removeIntervalList_inv l s e hinv hse, removeIntervalList_memIS l s e hinv hse x,
    removeIntervalList_noop l2 s2 e2 hinv2 hse2 hov⟩

theorem spec_c3_remove_difference_witness :
    EndpointInv (removeIntervalList [1, 10] 4 6) ∧
      memIS (removeIntervalList [1, 10] 4 6) 5
        = (memIS [1, 10] 5 && !(decide ((4 : Int) ≤ 5) && decide ((5 : Int) < 6))) ∧
      removeIntervalList [0, 5, 10, 15] 5 10 = [0, 5, 10, 15] :=
  spec_c3_remove_difference [1, 10] 4 6 5 [0, 5, 10, 15] 5 10
    (by decide) (by decide) (by decide) (by decide) (by decide)

/-- C4: for start >= end, both insert and remove append the InvalidInterval error
message to the log and leave the interval list unmodified; and for valid arguments no
error is emitted by insert, remove, clear, or the enumeration/rendering. -/
theorem spec_c4_invalid_interval (st st2 : ProgState) (s e s2 e2 : Int)
    (hse : s ≥ e) (hse2 : s2 < e2) :
    addInterval st s e
        = { st with log := st.log ++ [LogMsg.error "Error - start >= end"] } ∧
      removeInterval st s e
        = { st with log := st.log ++ [LogMsg.error "Error: start >= end"] } ∧
      (addInterval st s e).intervalList = st.intervalList ∧
      (removeInterval st s e).intervalList = st.intervalList ∧
      errorsOf (addInterval st2 s2 e2).log = errorsOf st2.log ∧
      errorsOf (removeInterval st2 s2 e2).log = errorsOf st2.log ∧
      errorsOf (printIntervals st2).log = errorsOf st2.log ∧
      errorsOf (clearList st2).log = errorsOf st2.log := by
  refine ⟨?_, ?_, ?_, ?_, ?_, ?_, ?_, ?_⟩
  · rw [addInterval, if_pos hse]
  · rw [removeInterval, if_pos hse]
  · rw [addInterval, if_pos hse]
  · rw [removeInterval, if_pos hse]
  · rw [addInterval, if_neg (not_le.mpr hse2)]
  · rw [removeInterval, if_neg (not_le.mpr hse2)]
  · rw [printIntervals, errorsOf, errorsOf, List.filter_append]
    simp [isErrorMsg]
  · rw [clearList, printIntervals, errorsOf, errorsOf, List.filter_append]
    simp [isErrorMsg]

theorem spec_c4_invalid_interval_witness :
    addInterval ⟨[1, 3], []⟩ 5 5
        = { ProgState.mk [1, 3] [] with
            log := ([] : List LogMsg) ++ [LogMsg.error "Error - start >= end"] } ∧
      removeInterval ⟨[1, 3], []⟩ 5 5
        = { ProgState.mk [1, 3] [] with
            log := ([] : List LogMsg) ++ [LogMsg.error "Error: start >= end"] } ∧
      (addInterval ⟨[1, 3], []⟩ 5 5).intervalList = [1, 3] ∧
      (removeInterval ⟨[1, 3], []⟩ 5 5).intervalList = [1, 3] ∧
      errorsOf (addInterval ⟨[], []⟩ 1 2).log = errorsOf ([] : List LogMsg) ∧
      errorsOf (removeInterval ⟨[], []⟩ 1 2).log = errorsOf ([] : List LogMsg) ∧
      errorsOf (printIntervals ⟨[], []⟩).log = errorsOf ([] : List LogMsg) ∧
      errorsOf (clearList ⟨[], []⟩).log = errorsOf ([] : List LogMsg) :=
  spec_c4_invalid_interval ⟨[1, 3], []⟩ ⟨[], []⟩ 5 5 1 2 (by decide) (by decide)

/-- C5: insertion is idempotent on invariant states: inserting the same valid
interval twice yields exactly the same stored list as inserting it once. -/
theorem spec_c5_insert_idempotent (l : List Int) (s e : Int) (hinv : EndpointInv l)
    (hse : s < e) :
    addIntervalList (addIntervalList l s e) s e = addIntervalList l s e :=
  addIntervalList_idem l s e hinv hse

theorem spec_c5_insert_idempotent_witness :
    addIntervalList (addIntervalList [1, 3, 8, 10] 2 9) 2 9
      = addIntervalList [1, 3, 8, 10] 2 9 :=
  spec_c5_insert_idempotent [1, 3, 8, 10] 2 9 (by decide) (by decide)

/-- C6: the fast paths of insert: on an empty list, or when start exceeds the
current maximum endpoint, the pair is appended at the end leaving existing
endpoints unchanged; when end is below the current minimum endpoint, the pair is
prepended at the front leaving existing endpoints unchanged. -/
theorem spec_c6_fast_paths (l1 l2 : List Int) (s1 e1 s2 e2 : Int)
    (hinv1 : EndpointInv l1) (hse1 : s1 < e1)
    (happ : l1 = [] ∨ l1.getLastD 0 < s1)
    (hinv2 : EndpointInv l2) (hse2 : s2 < e2) (hne2 : l2 ≠ [])
    (hpre : e2 < l2.headD 0) :
    addIntervalList l1 s1 e1 = l1 ++ [s1, e1] ∧
      addIntervalList l2 s2 e2 = s2 :: e2 :: l2 := by
  constructor
  · rw [addIntervalList, if_neg (not_le.mpr hse1)]
    rcases happ with h0 | hlast
    · rw [if_pos (Or.inl (by rw [h0]; rfl))]
    · rw [if_pos (Or.inr hlast)]
  · rw [addIntervalList, if_neg (not_le.mpr hse2)]
    have hhead : l2.headD 0 ≤ l2.getLastD 0 :=
      pairwise_le_getLastD l2 hinv2.2 _ (headD_mem l2 hne2 0) 0
    have hgl : ¬ l2.getLastD 0 < s2 := by omega
    rw [if_neg (show ¬ (l2.length = 0 ∨ l2.getLastD 0 < s2) from fun hA =>
      hA.elim (fun h => hne2 (by rwa [List.length_eq_zero] at h)) hgl)]
    rw [if_pos hpre]

theorem spec_c6_fast_paths_witness :
    addIntervalList [1, 3] 5 7 = [1, 3] ++ [5, 7] ∧
      addIntervalList [5, 10] 1 3 = 1 :: 3 :: [5, 10] :=
  spec_c6_fast_paths [1, 3] [5, 10] 5 7 1 3 (by decide) (by decide)
    (Or.inr (by decide)) (by decide) (by decide) (by decide) (by decide)

/-- C7: the rendering built by `printIntervals` joins the pair strings with a bare
comma, so a two-interval set renders as "[(1, 3),(5, 8)]", while the documented
format (spec, and the docstrings at source lines 97 and 123) separates consecutive
pairs with a comma and a space; the empty set does render as "[]". -/
theorem spec_c7_render_divergence :
    printIntervalsString [1, 3, 5, 8] = "[(1, 3),(5, 8)]" ∧
      specRenderIntervals (toPairs [1, 3, 5, 8]) = "[(1, 3), (5, 8)]" ∧
      printIntervalsString [1, 3, 5, 8] ≠ specRenderIntervals (toPairs [1, 3, 5, 8]) ∧
      printIntervalsString [] = "[]" ∧
      printIntervalsString [1, 3] = specRenderIntervals (toPairs [1, 3]) := by
  refine ⟨?_, ?_, ?_, ?_, ?_⟩ <;> decide

/-- C8: the enumeration/rendering operation is read-only: `printIntervals` never
changes the stored endpoint sequence, and neither does the enumerated pair list. -/
theorem spec_c8_print_read_only (st : ProgState) :
    (printIntervals st).intervalList = st.intervalList ∧
      toPairs (printIntervals st).intervalList = toPairs st.intervalList :=
  ⟨rfl, rfl⟩

/-- C9: both while loops of the mutation algorithms terminate: with fuel one more
than the list length, the fuelled search loop and the fuelled interior-deletion
loop reach their fixpoints and return the same results as the loop functions. -/
theorem spec_c9_loops_terminate :
    (∀ (l : List Int) (v : Int) (idx : Nat),
        searchIdxFuel (l.length + 1) l v idx = some (searchIdx l v idx)) ∧
      ∀ (l : List Int) (c : Nat) (e : Int),
        deleteLoopFuel (l.length + 1) l c e = some (deleteLoop l c e) :=
  ⟨fun l v idx => searchIdxFuel_converges (l.length + 1) l v idx (by omega),
   fun l c e => deleteLoopFuel_converges (l.length + 1) l c e (by omega)⟩

/-- C10: on every invariant state and valid interval, the bounds-checked variants of
insert and remove (every sequence access through Option-valued indexing) succeed and
agree with the algorithms: the out-of-bounds branch is unreachable. -/
theorem spec_c10_accesses_in_bounds (l : List Int) (s e : Int) (hinv : EndpointInv l)
    (hse : s < e) :
    addIntervalListO l s e = some (addIntervalList l s e) ∧
      removeIntervalListO l s e = some (removeIntervalList l s e) :=
  ⟨addIntervalListO_eq l s e hinv hse, removeIntervalListO_eq l s e hinv hse⟩

theorem spec_c10_accesses_in_bounds_witness :
    addIntervalListO [1, 3, 8, 10] 2 9 = some (addIntervalList [1, 3, 8, 10] 2 9) ∧
      removeIntervalListO [1, 3, 8, 10] 2 9
        = some (removeIntervalList [1, 3, 8, 10] 2 9) :=
  spec_c10_accesses_in_bounds [1, 3, 8, 10] 2 9 (by decide) (by decide)

end ManageIntervals
